import Mathlib

/-!
The interpolation kernels and the Poisson log density of stanhf.

A shallow embedding of `src/stanhf/extern.hpp`.

* The numeric template parameters (`T`, `U`, `V`) become one linearly ordered
  field `K`; the theorems about `log`, `pow` and `lgamma` instantiate `K` with `ℝ`.
* `stan::math::log`, `stan::math::pow` and `stan::math::lgamma` are external to the
  repository and are taken as parameters of the embedded functions.
* A dynamically sized Eigen vector is a `List K`.  Eigen's coefficient-wise binary
  operations require operands of equal size, and `operator[]` requires an index in
  range; a violated requirement is modelled by `none`.
* Outside the valid domain (`l ≤ 0`, `u ≤ 0`, a rate `≤ 0`) a field has no faithful
  value for `log(0)` or `1/0`.  For these inputs `poisson_real_lpdf` and `factor_interp`
  are embedded a second time over `XNum K`, the values of a `double` without rounding:
  a finite number, `+∞`, `−∞` or NaN.  On the valid domain the two embeddings agree
  (`factor_interp_x_valid`, `poisson_x_valid`).
-/

namespace Stanhf

variable {K : Type} [LinearOrderedField K]

/-! ## Eigen vectors -/

/-- Eigen `a - b` on dynamically sized vectors: coefficient-wise, sizes must agree. -/
def vsub (a b : List K) : Option (List K) :=
  if a.length = b.length then some (List.zipWith (fun p q => p - q) a b) else none

/-- Eigen `a + b` on dynamically sized vectors: coefficient-wise, sizes must agree. -/
def vadd (a b : List K) : Option (List K) :=
  if a.length = b.length then some (List.zipWith (fun p q => p + q) a b) else none

/-- Eigen `c * a` for a scalar `c`: every coefficient is multiplied by `c`. -/
def smul (c : K) (a : List K) : List K :=
  a.map (fun p => c * p)

/-- Coefficient `i` of a returned vector (`0` when there is none). -/
def bin (v : Option (List K)) (i : Nat) : K :=
  (v.getD []).getD i 0

/-! ## `term_interp` (extern.hpp, lines 20-42) -/

/-- Lines 35-41: the interior branch of `term_interp`. -/
def term_interp_interior (alpha : K) (x l u : List K) : Option (List K) := do
  let s := smul 0.5 (← vsub u l)
  let a := smul 0.0625 (← vsub (← vadd u l) (smul 2 x))
  let alpha_squared := alpha * alpha
  let r := alpha_squared * (alpha_squared * (alpha_squared * 3 - 10) + 15)
  vadd (smul r a) (smul alpha s)

/-- Lines 20-42: `term_interp(alpha, x, (l, u))`. -/
def term_interp (alpha : K) (x l u : List K) : Option (List K) :=
  if alpha > 1 then
    (vsub u x).map (smul alpha)
  else if alpha < -1 then
    (vsub x l).map (smul alpha)
  else
    term_interp_interior alpha x l u

/-- The per-bin piecewise formula of lines 27-41: what `term_interp` computes in one
coefficient, with `xi`, `li`, `ui` the coefficients of `x`, `l`, `u` in that bin. -/
def term_interp_bin (alpha xi li ui : K) : K :=
  if alpha > 1 then alpha * (ui - xi)
  else if alpha < -1 then alpha * (xi - li)
  else
    alpha * alpha * (alpha * alpha * (alpha * alpha * 3 - 10) + 15) * (0.0625 * (ui + li - 2 * xi))
      + alpha * (0.5 * (ui - li))

/-- Lines 37-39: the local `r` of `term_interp`, as a function of `alpha`. -/
def term_interp_r (alpha : K) : K :=
  let alpha_squared := alpha * alpha
  alpha_squared * (alpha_squared * (alpha_squared * 3 - 10) + 15)

/-- The specification's scalar formula for one bin (section 4.1, as the vectorisation
property words it): `α·(u_i − x_i)` if `α > 1`, `α·(x_i − l_i)` if `α < −1`, otherwise
`α²·(α²·(3α² − 10) + 15)·0.0625·(u_i + l_i − 2x_i) + α·0.5·(u_i − l_i)`. -/
def term_interp_spec (alpha xi li ui : K) : K :=
  if alpha > 1 then alpha * (ui - xi)
  else if alpha < -1 then alpha * (xi - li)
  else
    alpha ^ 2 * (alpha ^ 2 * (3 * alpha ^ 2 - 10) + 15) * 0.0625 * (ui + li - 2 * xi)
      + alpha * 0.5 * (ui - li)

/-! ## `poisson_real_lpdf` (extern.hpp, lines 4-12) -/

/-- Lines 4-12: `poisson_real_lpdf(k, lambda)`.  The loop runs over `i < k.size()` and
reads `k[i]` and `lambda[i]`, each of which needs `i` in range. -/
def poisson_real_lpdf (log lgamma : K → K) (k lambda : List K) : Option K :=
  (List.range k.length).foldlM
    (fun r i => do
      let ki ← k[i]?
      let li ← lambda[i]?
      pure (r + (ki * log li - li - lgamma (ki + 1))))
    0

/-! ## `factor_interp` (extern.hpp, lines 44-85) -/

/-- Lines 58-63: the vector `b`, built from `l`, `u` and their logarithms. -/
def b (log : K → K) (l u : K) : Fin 6 → K :=
  let log_u := log u
  let log_l := log l
  ![u - 1, 1 / l - 1, log_u * u, log_l / l, log_u * log_u * u, log_l * log_l / l]

/-- Lines 65-76: the matrix `m`.  The comma initialiser fills it row by row, and
`std::pow(p, q)` on the integer literals is the power `p ^ q`. -/
def m : Matrix (Fin 6) (Fin 6) K :=
  !![15 / 16, -15 / 16, -7 / 16, -7 / 16, 1 / 16, -1 / 16;
     3 / 2 ^ 2, 3 / 2 ^ 2, -9 / 16, 9 / 16, 1 / 16, 1 / 16;
     -5 / 8 ^ 3, 5 / 8 ^ 3, 5 / 8 ^ 2, 5 / 8 ^ 2, -1 / 8, 1 / 8;
     3 / (-(2 ^ 4)), 3 / (-(2 ^ 4)), -7 / (-(8 ^ 3)), 7 / (-(8 ^ 3)), -1 / 8 ^ 2, -1 / 8 ^ 2;
     3 / 16 ^ 5, -3 / 16 ^ 5, -3 / 16 ^ 4, -3 / 16 ^ 4, 1 / 16 ^ 3, -1 / 16 ^ 3;
     1 / 2 ^ 6, 1 / 2 ^ 6, -5 / 16 ^ 5, 5 / 16 ^ 5, 1 / 16 ^ 4, 1 / 16 ^ 4]

/-- Lines 79-82: the loop `r[0] = alpha`, `r[i] = r[i - 1] * alpha`. -/
def r_loop (alpha : K) : Nat → K
  | 0 => alpha
  | i + 1 => r_loop alpha i * alpha

/-- Lines 78-82: the vector `r` of the six entries the loop fills. -/
def r (alpha : K) : Fin 6 → K :=
  fun i => r_loop alpha i.val

/-- Lines 58-84: the interior branch of `factor_interp`, `1. + r.transpose() * m * b`. -/
def factor_interp_interior (log : K → K) (alpha l u : K) : K :=
  1 + Matrix.dotProduct (Matrix.vecMul (r alpha) m) (b log l u)

/-- Lines 44-85: `factor_interp(alpha, (l, u))`. -/
def factor_interp (log : K → K) (pow : K → K → K) (alpha l u : K) : K :=
  if alpha > 1 then
    pow u alpha
  else if alpha < -1 then
    pow l (-alpha)
  else
    factor_interp_interior log alpha l u

/-! ## Values of a `double` without rounding -/

/-- A value of the numeric type outside the exact model: a finite number, `+∞`, `−∞` or
NaN.  Finite arithmetic is exact (no rounding, no overflow) and zero is unsigned, taken as
the positive zero. -/
inductive XNum (K : Type) where
  | fin (x : K)
  | pinf
  | ninf
  | nan

namespace XNum

/-- Whether the value is a finite number. -/
def isFinite : XNum K → Bool
  | fin _ => true
  | _ => false

/-- The infinity with the sign of `x`; NaN when `x = 0` (as in `0 * ∞`). -/
def infOfSign (x : K) : XNum K :=
  if 0 < x then pinf else if x < 0 then ninf else nan

/-- Unary minus. -/
def neg : XNum K → XNum K
  | fin x => fin (-x)
  | pinf => ninf
  | ninf => pinf
  | nan => nan

/-- Addition: `∞ + (−∞)` is NaN, NaN propagates. -/
def add : XNum K → XNum K → XNum K
  | fin x, fin y => fin (x + y)
  | fin _, pinf => pinf
  | fin _, ninf => ninf
  | pinf, fin _ => pinf
  | pinf, pinf => pinf
  | ninf, fin _ => ninf
  | ninf, ninf => ninf
  | _, _ => nan

/-- Multiplication: `0 * ∞` is NaN, NaN propagates. -/
def mul : XNum K → XNum K → XNum K
  | fin x, fin y => fin (x * y)
  | fin x, pinf => infOfSign x
  | fin x, ninf => infOfSign (-x)
  | pinf, fin y => infOfSign y
  | ninf, fin y => infOfSign (-y)
  | pinf, pinf => pinf
  | ninf, ninf => pinf
  | pinf, ninf => ninf
  | ninf, pinf => ninf
  | _, _ => nan

/-- Division: `x / 0` is the infinity with the sign of `x` (NaN for `0 / 0`), a finite
value over an infinity is `0`, `∞ / ∞` is NaN, NaN propagates. -/
def div : XNum K → XNum K → XNum K
  | fin x, fin y => if y = 0 then infOfSign x else fin (x / y)
  | fin _, pinf => fin 0
  | fin _, ninf => fin 0
  | pinf, fin y => if y < 0 then ninf else pinf
  | ninf, fin y => if y < 0 then pinf else ninf
  | _, _ => nan

/-- The comparison `a < c`; false as soon as one side is NaN. -/
def lt : XNum K → XNum K → Bool
  | fin x, fin y => decide (x < y)
  | fin _, pinf => true
  | ninf, fin _ => true
  | ninf, pinf => true
  | _, _ => false

instance : Zero (XNum K) := ⟨fin 0⟩

instance : One (XNum K) := ⟨fin 1⟩

instance : Neg (XNum K) := ⟨neg⟩

instance : Add (XNum K) := ⟨add⟩

instance : Sub (XNum K) := ⟨fun a c => add a (neg c)⟩

instance : Mul (XNum K) := ⟨mul⟩

instance : Div (XNum K) := ⟨div⟩

instance : LT (XNum K) := ⟨fun a c => lt a c = true⟩

instance (a c : XNum K) : Decidable (a < c) := inferInstanceAs (Decidable (lt a c = true))

end XNum

/-- The logarithm on `XNum`, as in C: `log(0) = −∞`, NaN below zero and at `−∞`,
`log(+∞) = +∞`; on positive finite arguments it is the given `log`. -/
def log_x (log : K → K) : XNum K → XNum K
  | XNum.fin x => if 0 < x then XNum.fin (log x) else if x = 0 then XNum.ninf else XNum.nan
  | XNum.pinf => XNum.pinf
  | _ => XNum.nan

/-- The function `lgamma` on `XNum`: `+∞` at both infinities, NaN at NaN, and the given
`lgamma` at finite arguments (its poles at `0, −1, −2, …` are not modelled; the theorems
evaluate it at positive arguments only). -/
def lgamma_x (lgamma : K → K) : XNum K → XNum K
  | XNum.fin x => XNum.fin (lgamma x)
  | XNum.nan => XNum.nan
  | _ => XNum.pinf

/-- Lines 4-12 on `XNum`: `poisson_real_lpdf(k, lambda)`, the same loop as
`poisson_real_lpdf`. -/
def poisson_real_lpdf_x (log lgamma : XNum K → XNum K) (k lambda : List (XNum K)) :
    Option (XNum K) :=
  (List.range k.length).foldlM
    (fun r i => do
      let ki ← k[i]?
      let li ← lambda[i]?
      pure (r + (ki * log li - li - lgamma (ki + 1))))
    0

/-- Lines 58-63 on `XNum`: the vector `b`. -/
def b_x (log : XNum K → XNum K) (l u : XNum K) : Fin 6 → XNum K :=
  let log_u := log u
  let log_l := log l
  ![u - 1, 1 / l - 1, log_u * u, log_l / l, log_u * log_u * u, log_l * log_l / l]

/-- Lines 79-82 on `XNum`: the loop `r[0] = alpha`, `r[i] = r[i - 1] * alpha`. -/
def r_loop_x (alpha : XNum K) : Nat → XNum K
  | 0 => alpha
  | i + 1 => r_loop_x alpha i * alpha

/-- Lines 78-82 on `XNum`: the vector `r`. -/
def r_x (alpha : XNum K) : Fin 6 → XNum K :=
  fun i => r_loop_x alpha i.val

/-- The sum of six values, as in a product of Eigen vectors of size 6 (addition on `XNum`
is commutative and associative, so the order of the summation does not matter). -/
def sum6 (f : Fin 6 → XNum K) : XNum K :=
  f 0 + f 1 + f 2 + f 3 + f 4 + f 5

/-- Lines 58-84 on `XNum`: the interior branch `1. + r.transpose() * m * b`, the row
vector `rᵗ·m` first, then its product with `b`; the entries of `m` are the finite
constants of `m`. -/
def factor_interp_interior_x (log : XNum K → XNum K) (alpha l u : XNum K) : XNum K :=
  1 + sum6 fun j => (sum6 fun i => r_x alpha i * XNum.fin (m i j)) * b_x log l u j

/-- Lines 44-85 on `XNum`: `factor_interp(alpha, (l, u))`. -/
def factor_interp_x (log : XNum K → XNum K) (pow : XNum K → XNum K → XNum K)
    (alpha l u : XNum K) : XNum K :=
  if alpha > 1 then
    pow u alpha
  else if alpha < -1 then
    pow l (-alpha)
  else
    factor_interp_interior_x log alpha l u

/-! ## Lemmas on `term_interp` -/

/-- A coefficient-wise combination of two vectors of equal size, written over the index range. -/
theorem zipWith_eq_map_range (f : K → K → K) (a b : List K) (h : a.length = b.length) :
    List.zipWith f a b = (List.range b.length).map fun i => f (a.getD i 0) (b.getD i 0) := by
  apply List.ext_getElem
  · simp [h]
  · intro i h1 h2
    simp at h1 h2
    simp [List.getD_eq_getElem, h1.1, h1.2]

theorem term_interp_interior_eq (alpha : K) (x l u : List K)
    (hl : l.length = x.length) (hu : u.length = x.length) :
    term_interp_interior alpha x l u =
      some ((List.range x.length).map fun i =>
        alpha * alpha * (alpha * alpha * (alpha * alpha * 3 - 10) + 15)
            * (0.0625 * (u.getD i 0 + l.getD i 0 - 2 * x.getD i 0))
          + alpha * (0.5 * (u.getD i 0 - l.getD i 0))) := by
  simp only [term_interp_interior, vsub, vadd, smul, hl, hu, List.length_zipWith, List.length_map,
    min_self, if_true, Option.bind_eq_bind, Option.some_bind, Option.pure_def, Option.bind_some]
  simp
  apply List.ext_getElem
  · simp [hl, hu]
  · intro i h1 h2
    simp at h1 h2
    have hx : i < x.length := by omega
    have hli : i < l.length := by omega
    have hui : i < u.length := by omega
    simp [List.getD_eq_getElem, hx, hli, hui]
    ring

theorem term_interp_eq (alpha : K) (x l u : List K)
    (hl : l.length = x.length) (hu : u.length = x.length) :
    term_interp alpha x l u =
      some ((List.range x.length).map fun i =>
        term_interp_bin alpha (x.getD i 0) (l.getD i 0) (u.getD i 0)) := by
  unfold term_interp term_interp_bin
  split_ifs with h1 h2
  · simp only [vsub, hu, if_true, Option.map_some', smul, zipWith_eq_map_range _ u x hu,
      List.map_map]
    rfl
  · simp only [vsub, hl, if_true, Option.map_some', smul, zipWith_eq_map_range _ x l hl.symm,
      List.map_map]
    rfl
  · exact term_interp_interior_eq alpha x l u hl hu

theorem term_interp_bin_swap (alpha xi li ui : K) :
    term_interp_bin (-alpha) xi ui li = term_interp_bin alpha xi li ui := by
  unfold term_interp_bin
  split_ifs <;> first | (exfalso; linarith) | ring

theorem bin_term_interp (alpha : K) (x l u : List K)
    (hl : l.length = x.length) (hu : u.length = x.length) (i : Nat) (hi : i < x.length) :
    bin (term_interp alpha x l u) i
      = term_interp_bin alpha (x.getD i 0) (l.getD i 0) (u.getD i 0) := by
  rw [term_interp_eq alpha x l u hl hu]
  simp [bin, List.getD_eq_getElem, hi]

theorem bin_term_interp_interior (alpha : K) (x l u : List K)
    (hl : l.length = x.length) (hu : u.length = x.length) (i : Nat) (hi : i < x.length) :
    bin (term_interp_interior alpha x l u) i
      = alpha * alpha * (alpha * alpha * (alpha * alpha * 3 - 10) + 15)
            * (0.0625 * (u.getD i 0 + l.getD i 0 - 2 * x.getD i 0))
          + alpha * (0.5 * (u.getD i 0 - l.getD i 0)) := by
  rw [term_interp_interior_eq alpha x l u hl hu]
  simp [bin, List.getD_eq_getElem, hi]

/-- The interior polynomial of one bin and its derivative in `alpha`. -/
theorem interior_hasDerivAt (xi li ui a : ℝ) :
    HasDerivAt
      (fun alpha : ℝ =>
        alpha * alpha * (alpha * alpha * (alpha * alpha * 3 - 10) + 15)
            * (0.0625 * (ui + li - 2 * xi))
          + alpha * (0.5 * (ui - li)))
      ((18 * a ^ 5 - 40 * a ^ 3 + 30 * a) * (0.0625 * (ui + li - 2 * xi)) + 0.5 * (ui - li)) a := by
  have h1 : HasDerivAt (fun alpha : ℝ => 3 * alpha ^ 6 - 10 * alpha ^ 4 + 15 * alpha ^ 2)
      (3 * (6 * a ^ 5) - 10 * (4 * a ^ 3) + 15 * (2 * a ^ 1)) a := by
    have h6 := (hasDerivAt_pow 6 a).const_mul (3 : ℝ)
    have h4 := (hasDerivAt_pow 4 a).const_mul (10 : ℝ)
    have h2 := (hasDerivAt_pow 2 a).const_mul (15 : ℝ)
    simpa using (h6.sub h4).add h2
  have h := (h1.mul_const (0.0625 * (ui + li - 2 * xi))).add
    ((hasDerivAt_id a).mul_const (0.5 * (ui - li)))
  convert h using 1
  · funext alpha
    simp only [id]
    ring
  · ring

theorem term_interp_bin_hasDerivAt_one (xi li ui : ℝ) :
    HasDerivAt (fun alpha : ℝ => term_interp_bin alpha xi li ui) (ui - xi) 1 := by
  rw [← hasDerivWithinAt_univ, ← Set.Iic_union_Ici (a := (1 : ℝ))]
  apply HasDerivWithinAt.union
  · -- from the left the interior polynomial is evaluated
    have hp := (interior_hasDerivAt xi li ui 1).hasDerivWithinAt (s := Set.Iic 1)
    have hp' : HasDerivWithinAt
        (fun alpha : ℝ =>
          alpha * alpha * (alpha * alpha * (alpha * alpha * 3 - 10) + 15)
              * (0.0625 * (ui + li - 2 * xi))
            + alpha * (0.5 * (ui - li))) (ui - xi) (Set.Iic 1) 1 := by
      convert hp using 1
      norm_num
      ring
    refine hp'.congr_of_eventuallyEq ?_ ?_
    · have hmem : Set.Ioi (-1 : ℝ) ∈ nhdsWithin (1 : ℝ) (Set.Iic 1) :=
        mem_nhdsWithin_of_mem_nhds (Ioi_mem_nhds (by norm_num))
      filter_upwards [hmem, self_mem_nhdsWithin] with alpha h1 h2
      simp only [Set.mem_Ioi] at h1
      simp only [Set.mem_Iic] at h2
      simp [term_interp_bin, not_lt.mpr h2, not_lt.mpr h1.le]
    · simp [term_interp_bin]
  · -- from the right the linear branch is evaluated
    have hlin : HasDerivWithinAt (fun alpha : ℝ => alpha * (ui - xi)) (ui - xi) (Set.Ici 1) 1 := by
      simpa using ((hasDerivAt_id (1 : ℝ)).mul_const (ui - xi)).hasDerivWithinAt
    refine hlin.congr ?_ ?_
    · intro alpha h
      simp only [Set.mem_Ici] at h
      rcases h.eq_or_lt with h | h
      · subst h
        simp [term_interp_bin]
        norm_num
        ring
      · simp [term_interp_bin, h]
    · simp [term_interp_bin]
      norm_num
      ring


theorem term_interp_bin_hasDerivAt_neg_one (xi li ui : ℝ) :
    HasDerivAt (fun alpha : ℝ => term_interp_bin alpha xi li ui) (xi - li) (-1) := by
  rw [← hasDerivWithinAt_univ, ← Set.Iic_union_Ici (a := (-1 : ℝ))]
  apply HasDerivWithinAt.union
  · -- from the left the linear branch is evaluated
    have hlin : HasDerivWithinAt (fun alpha : ℝ => alpha * (xi - li)) (xi - li) (Set.Iic (-1)) (-1) := by
      simpa using ((hasDerivAt_id (-1 : ℝ)).mul_const (xi - li)).hasDerivWithinAt
    refine hlin.congr ?_ ?_
    · intro alpha h
      simp only [Set.mem_Iic] at h
      rcases h.eq_or_lt with h | h
      · subst h
        simp [term_interp_bin]
        norm_num
        ring
      · have h' : ¬ alpha > 1 := by
          intro hc
          linarith
        simp [term_interp_bin, h, h']
    · simp [term_interp_bin]
      norm_num
      ring
  · -- from the right the interior polynomial is evaluated
    have hp := (interior_hasDerivAt xi li ui (-1)).hasDerivWithinAt (s := Set.Ici (-1))
    have hp' : HasDerivWithinAt
        (fun alpha : ℝ =>
          alpha * alpha * (alpha * alpha * (alpha * alpha * 3 - 10) + 15)
              * (0.0625 * (ui + li - 2 * xi))
            + alpha * (0.5 * (ui - li))) (xi - li) (Set.Ici (-1)) (-1) := by
      convert hp using 1
      norm_num
      ring
    refine hp'.congr_of_eventuallyEq ?_ ?_
    · have hmem : Set.Iio (1 : ℝ) ∈ nhdsWithin (-1 : ℝ) (Set.Ici (-1)) :=
        mem_nhdsWithin_of_mem_nhds (Iio_mem_nhds (by norm_num))
      filter_upwards [hmem, self_mem_nhdsWithin] with alpha h1 h2
      simp only [Set.mem_Iio] at h1
      simp only [Set.mem_Ici] at h2
      simp [term_interp_bin, not_lt.mpr h2, not_lt.mpr h1.le]
    · simp [term_interp_bin]

/-! ## Lemmas on `poisson_real_lpdf` -/

theorem poisson_loop_eq (log lgamma : K → K) (k lambda : List K) (n : Nat)
    (hk : n ≤ k.length) (hl : n ≤ lambda.length) :
    (List.range n).foldlM
      (fun r i => do
        let ki ← k[i]?
        let li ← lambda[i]?
        pure (r + (ki * log li - li - lgamma (ki + 1))))
      (0 : K)
    = some (∑ i ∈ Finset.range n,
        (k.getD i 0 * log (lambda.getD i 0) - lambda.getD i 0 - lgamma (k.getD i 0 + 1))) := by
  induction n with
  | zero => simp
  | succ n ih =>
    have h1 : n < k.length := by omega
    have h2 : n < lambda.length := by omega
    rw [List.range_succ, List.foldlM_append, ih (by omega) (by omega), Finset.sum_range_succ]
    simp [List.getD_eq_getElem, h1, h2, List.getElem?_eq_getElem]

theorem poisson_real_lpdf_eq_sum (log lgamma : K → K) (k lambda : List K)
    (h : k.length = lambda.length) :
    poisson_real_lpdf log lgamma k lambda
    = some (∑ i ∈ Finset.range k.length,
        (k.getD i 0 * log (lambda.getD i 0) - lambda.getD i 0 - lgamma (k.getD i 0 + 1))) :=
  poisson_loop_eq log lgamma k lambda k.length le_rfl (by omega)

theorem poisson_single (log lgamma : K → K) (k lam : K) :
    poisson_real_lpdf log lgamma [k] [lam] = some (k * log lam - lam - lgamma (k + 1)) := by
  rw [poisson_real_lpdf_eq_sum log lgamma [k] [lam] rfl]
  simp

/-! ## Lemmas on `factor_interp` -/

/-- Entry 5 of a vector literal (the library stops at entry 4). -/
theorem vecCons_val_five {α : Type} {n : Nat} (x : α) (u : Fin (n + 5) → α) :
    Matrix.vecCons x u 5
      = Matrix.vecHead (Matrix.vecTail (Matrix.vecTail (Matrix.vecTail (Matrix.vecTail u)))) :=
  rfl

theorem r_eq (alpha : K) :
    r alpha = ![alpha, alpha ^ 2, alpha ^ 3, alpha ^ 4, alpha ^ 5, alpha ^ 6] := by
  funext i
  fin_cases i <;> simp [r, r_loop, vecCons_val_five] <;> ring

/-- The six coefficients `m * b` of the interior polynomial, written out. -/
theorem m_mulVec_b (log : K → K) (l u : K) :
    Matrix.mulVec m (b log l u) =
      ![15 / 16 * (u - 1) + -15 / 16 * (1 / l - 1) + -7 / 16 * (log u * u) + -7 / 16 * (log l / l)
          + 1 / 16 * (log u * log u * u) + -1 / 16 * (log l * log l / l),
        3 / 4 * (u - 1) + 3 / 4 * (1 / l - 1) + -9 / 16 * (log u * u) + 9 / 16 * (log l / l)
          + 1 / 16 * (log u * log u * u) + 1 / 16 * (log l * log l / l),
        -5 / 512 * (u - 1) + 5 / 512 * (1 / l - 1) + 5 / 64 * (log u * u) + 5 / 64 * (log l / l)
          + -1 / 8 * (log u * log u * u) + 1 / 8 * (log l * log l / l),
        -3 / 16 * (u - 1) + -3 / 16 * (1 / l - 1) + 7 / 512 * (log u * u) + -7 / 512 * (log l / l)
          + -1 / 64 * (log u * log u * u) + -1 / 64 * (log l * log l / l),
        3 / 1048576 * (u - 1) + -3 / 1048576 * (1 / l - 1) + -3 / 65536 * (log u * u)
          + -3 / 65536 * (log l / l) + 1 / 4096 * (log u * log u * u)
          + -1 / 4096 * (log l * log l / l),
        1 / 64 * (u - 1) + 1 / 64 * (1 / l - 1) + -5 / 1048576 * (log u * u)
          + 5 / 1048576 * (log l / l) + 1 / 65536 * (log u * log u * u)
          + 1 / 65536 * (log l * log l / l)] := by
  funext i
  fin_cases i
  all_goals
    simp only [Matrix.mulVec, Matrix.dotProduct, Fin.sum_univ_six, m, b, Matrix.of_apply,
      Matrix.cons_val_zero, Matrix.cons_val_one, Matrix.cons_val_two, Matrix.cons_val_three,
      Matrix.cons_val_four, vecCons_val_five, Matrix.head_cons, Matrix.tail_cons,
      Fin.zero_eta, Fin.mk_one, Fin.reduceFinMk]
    try norm_num

theorem factor_interp_interior_poly (log : K → K) (alpha l u : K) :
    factor_interp_interior log alpha l u =
      1 + (alpha * Matrix.mulVec m (b log l u) 0 + alpha ^ 2 * Matrix.mulVec m (b log l u) 1
        + alpha ^ 3 * Matrix.mulVec m (b log l u) 2 + alpha ^ 4 * Matrix.mulVec m (b log l u) 3
        + alpha ^ 5 * Matrix.mulVec m (b log l u) 4 + alpha ^ 6 * Matrix.mulVec m (b log l u) 5) := by
  unfold factor_interp_interior
  rw [← Matrix.dotProduct_mulVec, r_eq]
  simp only [Matrix.dotProduct, Fin.sum_univ_six,
      Matrix.cons_val_zero, Matrix.cons_val_one, Matrix.cons_val_two, Matrix.cons_val_three,
      Matrix.cons_val_four, vecCons_val_five, Matrix.head_cons, Matrix.tail_cons]

theorem factor_interp_of_interior (log : K → K) (pow : K → K → K) (alpha l u : K)
    (h1 : alpha ≤ 1) (h2 : -1 ≤ alpha) :
    factor_interp log pow alpha l u = factor_interp_interior log alpha l u := by
  simp [factor_interp, not_lt.mpr h1, not_lt.mpr h2]

/-- The interior polynomial `1 + rᵗ·m·b` of `factor_interp` and its derivative in `alpha`. -/
theorem factor_interp_interior_hasDerivAt (log : ℝ → ℝ) (l u a : ℝ) :
    HasDerivAt (fun alpha : ℝ => factor_interp_interior log alpha l u)
      (Matrix.mulVec m (b log l u) 0 + 2 * a * Matrix.mulVec m (b log l u) 1
        + 3 * a ^ 2 * Matrix.mulVec m (b log l u) 2 + 4 * a ^ 3 * Matrix.mulVec m (b log l u) 3
        + 5 * a ^ 4 * Matrix.mulVec m (b log l u) 4
        + 6 * a ^ 5 * Matrix.mulVec m (b log l u) 5) a := by
  have h1 := (hasDerivAt_id a).mul_const (Matrix.mulVec m (b log l u) 0)
  have h2 := (hasDerivAt_pow 2 a).mul_const (Matrix.mulVec m (b log l u) 1)
  have h3 := (hasDerivAt_pow 3 a).mul_const (Matrix.mulVec m (b log l u) 2)
  have h4 := (hasDerivAt_pow 4 a).mul_const (Matrix.mulVec m (b log l u) 3)
  have h5 := (hasDerivAt_pow 5 a).mul_const (Matrix.mulVec m (b log l u) 4)
  have h6 := (hasDerivAt_pow 6 a).mul_const (Matrix.mulVec m (b log l u) 5)
  have h := (((((h1.add h2).add h3).add h4).add h5).add h6).const_add 1
  convert h using 1
  · funext alpha
    rw [factor_interp_interior_poly]
    simp
  · simp


/-! ## Boundary values, identity at zero and symmetry of `term_interp` -/

/-- C1. For `x`, `l`, `u` of equal length, `alpha = 1` and `alpha = -1` are both evaluated
by the interior branch of `term_interp`, and there `term_interp(1, x, (l,u))` is `u - x`
coefficient by coefficient and `term_interp(-1, x, (l,u))` is `-(x - l)`: the interior
branch meets the two linear branches at the boundaries. -/
theorem term_interp_boundary_value (x l u : List K)
    (hl : l.length = x.length) (hu : u.length = x.length) :
    term_interp 1 x l u = term_interp_interior 1 x l u ∧
    term_interp (-1) x l u = term_interp_interior (-1) x l u ∧
    term_interp 1 x l u = some (List.zipWith (fun ui xi => ui - xi) u x) ∧
    term_interp (-1) x l u = some (List.zipWith (fun xi li => -(xi - li)) x l) := by
  have e1 : term_interp 1 x l u = term_interp_interior 1 x l u := by
    simp [term_interp]
  have e2 : term_interp (-1) x l u = term_interp_interior (-1) x l u := by
    simp [term_interp]
  refine ⟨e1, e2, ?_, ?_⟩
  · rw [e1, term_interp_interior_eq 1 x l u hl hu, zipWith_eq_map_range _ u x hu]
    congr 1
    apply List.map_congr_left
    intro i _
    norm_num
    ring
  · rw [e2, term_interp_interior_eq (-1) x l u hl hu, zipWith_eq_map_range _ x l hl.symm, hl]
    congr 1
    apply List.map_congr_left
    intro i _
    norm_num
    ring

/-- Witness of C1 on two bins, `x = [10, 20]`, `l = [8, 18]`, `u = [13, 23]`. -/
theorem term_interp_boundary_value_witness :
    ([8, 18] : List ℚ).length = ([10, 20] : List ℚ).length ∧
    ([13, 23] : List ℚ).length = ([10, 20] : List ℚ).length ∧
    term_interp (1 : ℚ) [10, 20] [8, 18] [13, 23] = some [3, 3] ∧
    term_interp (-1 : ℚ) [10, 20] [8, 18] [13, 23] = some [-2, -2] := by
  have h := term_interp_boundary_value ([10, 20] : List ℚ) [8, 18] [13, 23] rfl rfl
  refine ⟨rfl, rfl, ?_, ?_⟩
  · rw [h.2.2.1]
    norm_num
  · rw [h.2.2.2]
    norm_num

/-! ## `factor_interp` at the junctions and at zero -/

/-- C2 (the code departs from it). At `alpha = 1`, `l = 1`, `u = 2` the call is evaluated
by the interior branch `1 + rᵗ·m·b` with the matrix `m` as written in the code; its value is
the displayed expression in `ln 2` (about `1.232`), which is not `u = 2`. -/
theorem factor_interp_one_ne_u :
    factor_interp Real.log (fun p q => p ^ q) 1 1 2
      = 1 + (1579011 / 1048576 - 952373 / 1048576 * (Real.log 2 * 2)
          - 1007 / 65536 * (Real.log 2 * Real.log 2 * 2)) ∧
    factor_interp Real.log (fun p q => p ^ q) 1 1 2 ≠ 2 := by
  have hv : factor_interp Real.log (fun p q => p ^ q) 1 1 2
      = 1 + (1579011 / 1048576 - 952373 / 1048576 * (Real.log 2 * 2)
          - 1007 / 65536 * (Real.log 2 * Real.log 2 * 2)) := by
    rw [factor_interp_of_interior _ _ _ _ _ (by norm_num) (by norm_num)]
    simp [factor_interp_interior_poly, m_mulVec_b, vecCons_val_five]
    ring
  refine ⟨hv, ?_⟩
  rw [hv]
  have hL : 0.6931471803 < Real.log 2 := Real.log_two_gt_d9
  have hL2 : 0 < Real.log 2 * Real.log 2 := by positivity
  intro h
  nlinarith

/-- C3 (the code departs from it). At `alpha = -1`, `l = 2`, `u = 1` the call is evaluated
by the interior branch with the vector `b` and the matrix `m` as written in the code; its
value is the displayed expression in `ln 2` (about `0.558`), which is not `l = 2`. -/
theorem factor_interp_neg_one_ne_l :
    factor_interp Real.log (fun p q => p ^ q) (-1) 2 1
      = 1 + (-(1579011 / 1048576) * (1 / 2) + 952373 / 1048576 * (Real.log 2 / 2)
          - 1007 / 65536 * (Real.log 2 * Real.log 2 / 2)) ∧
    factor_interp Real.log (fun p q => p ^ q) (-1) 2 1 ≠ 2 := by
  have hv : factor_interp Real.log (fun p q => p ^ q) (-1) 2 1
      = 1 + (-(1579011 / 1048576) * (1 / 2) + 952373 / 1048576 * (Real.log 2 / 2)
          - 1007 / 65536 * (Real.log 2 * Real.log 2 / 2)) := by
    rw [factor_interp_of_interior _ _ _ _ _ (by norm_num) (by norm_num)]
    simp [factor_interp_interior_poly, m_mulVec_b, vecCons_val_five]
    ring
  refine ⟨hv, ?_⟩
  rw [hv]
  have hL : Real.log 2 < 0.6931471808 := Real.log_two_lt_d9
  have hL2 : 0 < Real.log 2 * Real.log 2 := by positivity
  intro h
  nlinarith

/-- C4. For `l > 0` and `u > 0`, `factor_interp(0, (l,u))` is exactly `1`. -/
theorem factor_interp_zero (l u : ℝ) (_hl : 0 < l) (_hu : 0 < u) :
    factor_interp Real.log (fun p q => p ^ q) 0 l u = 1 := by
  rw [factor_interp_of_interior _ _ _ _ _ (by norm_num) (by norm_num)]
  simp [factor_interp_interior_poly]

/-- Witness of C4 at `l = 1/2`, `u = 2`. -/
theorem factor_interp_zero_witness :
    (0 : ℝ) < 1 / 2 ∧ (0 : ℝ) < 2 ∧
    factor_interp Real.log (fun p q => p ^ q) 0 (1 / 2) 2 = 1 :=
  ⟨by norm_num, by norm_num, factor_interp_zero (1 / 2) 2 (by norm_num) (by norm_num)⟩

/-- C5. For `x`, `l`, `u` of equal length, `term_interp(0, x, (l,u))` is the zero vector of
that length: every bin's shift is `0`. -/
theorem term_interp_zero (x l u : List K)
    (hl : l.length = x.length) (hu : u.length = x.length) :
    term_interp 0 x l u = some (List.replicate x.length 0) := by
  rw [term_interp_eq 0 x l u hl hu]
  congr 1
  apply List.ext_getElem
  · simp
  · intro i h1 h2
    simp [term_interp_bin]

/-- Witness of C5 on two bins. -/
theorem term_interp_zero_witness :
    ([8, 18] : List ℚ).length = ([10, 20] : List ℚ).length ∧
    ([13, 23] : List ℚ).length = ([10, 20] : List ℚ).length ∧
    term_interp (0 : ℚ) [10, 20] [8, 18] [13, 23] = some [0, 0] :=
  ⟨rfl, rfl, term_interp_zero ([10, 20] : List ℚ) [8, 18] [13, 23] rfl rfl⟩

/-- C6. For every `alpha` and `x`, `l`, `u` of equal length, swapping the variation pair
and negating `alpha` leaves the result unchanged,
`term_interp(-alpha, x, (u,l)) = term_interp(alpha, x, (l,u))`, whichever of the three
branches `alpha` falls in; the common result is the vector of the per-bin values. -/
theorem term_interp_swap_neg (alpha : K) (x l u : List K)
    (hl : l.length = x.length) (hu : u.length = x.length) :
    term_interp (-alpha) x u l = term_interp alpha x l u ∧
    term_interp alpha x l u =
      some ((List.range x.length).map fun i =>
        term_interp_bin alpha (x.getD i 0) (l.getD i 0) (u.getD i 0)) := by
  refine ⟨?_, term_interp_eq alpha x l u hl hu⟩
  rw [term_interp_eq alpha x l u hl hu, term_interp_eq (-alpha) x u l hu hl]
  congr 1
  apply List.map_congr_left
  intro i _
  exact term_interp_bin_swap alpha _ _ _

/-- Witness of C6 in the upper branch, `alpha = 2`. -/
theorem term_interp_swap_neg_witness :
    ([8, 18] : List ℚ).length = ([10, 20] : List ℚ).length ∧
    ([13, 23] : List ℚ).length = ([10, 20] : List ℚ).length ∧
    term_interp (-2 : ℚ) [10, 20] [13, 23] [8, 18] = term_interp 2 [10, 20] [8, 18] [13, 23] :=
  ⟨rfl, rfl, (term_interp_swap_neg (2 : ℚ) [10, 20] [8, 18] [13, 23] rfl rfl).1⟩

/-! ## `poisson_real_lpdf` -/

/-- C7. For `k` and `lambda` of equal length `n`, `poisson_real_lpdf(k, lambda)` is the sum
over `i < n` of `k_i * ln(lambda_i) - lambda_i - lgamma(k_i + 1)`, which is `0` for `n = 0`;
in particular `poisson_real_lpdf([3], [2]) = 3 ln 2 - 2 - lgamma(4) = 3 ln 2 - 2 - ln 6`. -/
theorem poisson_real_lpdf_closed_form :
    (∀ k lam : List ℝ, k.length = lam.length →
      poisson_real_lpdf Real.log (fun t => Real.log |Real.Gamma t|) k lam
      = some (∑ i ∈ Finset.range k.length,
          (k.getD i 0 * Real.log (lam.getD i 0) - lam.getD i 0
            - Real.log |Real.Gamma (k.getD i 0 + 1)|))) ∧
    poisson_real_lpdf Real.log (fun t => Real.log |Real.Gamma t|) [] [] = some 0 ∧
    poisson_real_lpdf Real.log (fun t => Real.log |Real.Gamma t|) [3] [2]
      = some (3 * Real.log 2 - 2 - Real.log |Real.Gamma 4|) ∧
    poisson_real_lpdf Real.log (fun t => Real.log |Real.Gamma t|) [3] [2]
      = some (3 * Real.log 2 - 2 - Real.log 6) := by
  have hG : Real.Gamma 4 = 6 := by
    rw [show (4 : ℝ) = ((3 : ℕ) : ℝ) + 1 by norm_num, Real.Gamma_nat_eq_factorial]
    norm_num [Nat.factorial]
  refine ⟨fun k lam h => poisson_real_lpdf_eq_sum _ _ k lam h, ?_, ?_, ?_⟩
  · simp [poisson_real_lpdf]
  · rw [poisson_single]; norm_num
  · rw [poisson_single, show (3 : ℝ) + 1 = 4 by norm_num, hG]; norm_num

/-- Witness of C7 on two bins, `k = [3, 1]`, `lambda = [2, 5]`. -/
theorem poisson_real_lpdf_closed_form_witness :
    ([3, 1] : List ℝ).length = ([2, 5] : List ℝ).length ∧
    poisson_real_lpdf Real.log (fun t => Real.log |Real.Gamma t|) [3, 1] [2, 5]
      = some (∑ i ∈ Finset.range ([3, 1] : List ℝ).length,
          (([3, 1] : List ℝ).getD i 0 * Real.log (([2, 5] : List ℝ).getD i 0)
            - ([2, 5] : List ℝ).getD i 0
            - Real.log |Real.Gamma (([3, 1] : List ℝ).getD i 0 + 1)|)) :=
  ⟨rfl, poisson_real_lpdf_closed_form.1 [3, 1] [2, 5] rfl⟩

/-- C9. For `x`, `l`, `u` of equal length and every bin `i`, the derivative in `alpha` of
the interior branch `r(alpha)·a + alpha·s` is `u_i - x_i` at `alpha = 1` and `x_i - l_i` at
`alpha = -1`; these are the slopes of the linear branches `alpha·(u - x)` and
`alpha·(x - l)`, and the whole piecewise function `term_interp` has these derivatives at
`alpha = 1` and `alpha = -1`. -/
theorem term_interp_deriv_junctions (x l u : List ℝ)
    (hl : l.length = x.length) (hu : u.length = x.length) (i : Nat) (hi : i < x.length) :
    HasDerivAt (fun alpha : ℝ => bin (term_interp_interior alpha x l u) i)
      (u.getD i 0 - x.getD i 0) 1 ∧
    HasDerivAt (fun alpha : ℝ => bin (term_interp_interior alpha x l u) i)
      (x.getD i 0 - l.getD i 0) (-1) ∧
    (∀ a : ℝ, HasDerivAt (fun alpha : ℝ => alpha * (u.getD i 0 - x.getD i 0))
      (u.getD i 0 - x.getD i 0) a) ∧
    (∀ a : ℝ, HasDerivAt (fun alpha : ℝ => alpha * (x.getD i 0 - l.getD i 0))
      (x.getD i 0 - l.getD i 0) a) ∧
    HasDerivAt (fun alpha : ℝ => bin (term_interp alpha x l u) i)
      (u.getD i 0 - x.getD i 0) 1 ∧
    HasDerivAt (fun alpha : ℝ => bin (term_interp alpha x l u) i)
      (x.getD i 0 - l.getD i 0) (-1) := by
  have e1 : (fun alpha : ℝ => bin (term_interp_interior alpha x l u) i)
      = fun alpha : ℝ =>
          alpha * alpha * (alpha * alpha * (alpha * alpha * 3 - 10) + 15)
              * (0.0625 * (u.getD i 0 + l.getD i 0 - 2 * x.getD i 0))
            + alpha * (0.5 * (u.getD i 0 - l.getD i 0)) :=
    funext fun alpha => bin_term_interp_interior alpha x l u hl hu i hi
  have e2 : (fun alpha : ℝ => bin (term_interp alpha x l u) i)
      = fun alpha : ℝ => term_interp_bin alpha (x.getD i 0) (l.getD i 0) (u.getD i 0) :=
    funext fun alpha => bin_term_interp alpha x l u hl hu i hi
  refine ⟨?_, ?_, ?_, ?_, ?_, ?_⟩
  · rw [e1]
    convert interior_hasDerivAt (x.getD i 0) (l.getD i 0) (u.getD i 0) 1 using 1
    norm_num
    ring
  · rw [e1]
    convert interior_hasDerivAt (x.getD i 0) (l.getD i 0) (u.getD i 0) (-1) using 1
    norm_num
    ring
  · intro a
    simpa using (hasDerivAt_id a).mul_const (u.getD i 0 - x.getD i 0)
  · intro a
    simpa using (hasDerivAt_id a).mul_const (x.getD i 0 - l.getD i 0)
  · rw [e2]
    exact term_interp_bin_hasDerivAt_one _ _ _
  · rw [e2]
    exact term_interp_bin_hasDerivAt_neg_one _ _ _


/-- Witness of C9 in bin `0` of `x = [10, 20]`, `l = [8, 18]`, `u = [13, 23]`. -/
theorem term_interp_deriv_junctions_witness :
    ([8, 18] : List ℝ).length = ([10, 20] : List ℝ).length ∧
    ([13, 23] : List ℝ).length = ([10, 20] : List ℝ).length ∧
    0 < ([10, 20] : List ℝ).length ∧
    HasDerivAt (fun alpha : ℝ => bin (term_interp alpha [10, 20] [8, 18] [13, 23]) 0)
      (([13, 23] : List ℝ).getD 0 0 - ([10, 20] : List ℝ).getD 0 0) 1 ∧
    HasDerivAt (fun alpha : ℝ => bin (term_interp alpha [10, 20] [8, 18] [13, 23]) 0)
      (([10, 20] : List ℝ).getD 0 0 - ([8, 18] : List ℝ).getD 0 0) (-1) :=
  ⟨rfl, rfl, by decide,
    (term_interp_deriv_junctions [10, 20] [8, 18] [13, 23] rfl rfl 0 (by decide)).2.2.2.2.1,
    (term_interp_deriv_junctions [10, 20] [8, 18] [13, 23] rfl rfl 0 (by decide)).2.2.2.2.2⟩

/-- C10 (the code departs from it). The derivative in `alpha` of the interior branch
`1 + rᵗ·m·b` is not `ln(u)·u` at `alpha = 1` for `(l, u) = (1, 2)`, and it is not
`-ln(l)·l` at `alpha = -1` for `(l, u) = (2, 1)`. -/
theorem factor_interp_deriv_mismatch :
    ¬ HasDerivAt (fun alpha : ℝ => factor_interp_interior Real.log alpha 1 2)
        (Real.log 2 * 2) 1 ∧
    ¬ HasDerivAt (fun alpha : ℝ => factor_interp_interior Real.log alpha 2 1)
        (-Real.log 2 * 2) (-1) := by
  have hlo : 0.6931471803 < Real.log 2 := Real.log_two_gt_d9
  have hhi : Real.log 2 < 0.6931471808 := Real.log_two_lt_d9
  have hL2 : 0 < Real.log 2 * Real.log 2 := by positivity
  constructor
  · intro h
    have h' := factor_interp_interior_hasDerivAt Real.log 1 2 1
    have e := h.unique h'
    simp [m_mulVec_b, vecCons_val_five] at e
    nlinarith
  · intro h
    have h' := factor_interp_interior_hasDerivAt Real.log 2 1 (-1)
    have e := h.unique h'
    simp [m_mulVec_b, vecCons_val_five] at e
    nlinarith


/-! ## Further lemmas -/

/-- The local `r` of lines 37-39 is the factor used by the interior branch. -/
theorem term_interp_interior_r (alpha : K) (x l u : List K) :
    term_interp_interior alpha x l u =
      (vsub u l).bind fun d =>
        (vadd u l).bind fun p =>
          (vsub p (smul 2 x)).bind fun t =>
            vadd (smul (term_interp_r alpha) (smul 0.0625 t)) (smul alpha (smul 0.5 d)) := by
  rfl

theorem term_interp_bin_eq_spec (alpha xi li ui : K) :
    term_interp_bin alpha xi li ui = term_interp_spec alpha xi li ui := by
  unfold term_interp_bin term_interp_spec
  split_ifs <;> ring

/-- The derivative of the polynomial `r` of `term_interp`. -/
theorem term_interp_r_hasDerivAt (a : ℝ) :
    HasDerivAt (fun alpha : ℝ => term_interp_r alpha) (18 * a ^ 5 - 40 * a ^ 3 + 30 * a) a := by
  have h := interior_hasDerivAt 0 8 8 a
  convert h using 1
  · funext alpha
    simp only [term_interp_r]
    norm_num
  · norm_num

/-- On `0 ≤ alpha ≤ 1` the interior polynomial of a bin with `u + l - 2x = 1` and
`u - l = 5` is non-decreasing. -/
theorem interior_mono_aux (a c : ℝ) (ha : 0 ≤ a) (hac : a ≤ c) (hc : c ≤ 1) :
    a * a * (a * a * (a * a * 3 - 10) + 15) * (0.0625 * 1) + a * (0.5 * 5)
      ≤ c * c * (c * c * (c * c * 3 - 10) + 15) * (0.0625 * 1) + c * (0.5 * 5) := by
  have hs : 0 ≤ a * a := mul_nonneg ha ha
  have hc0 : 0 ≤ c := le_trans ha hac
  have hst : a * a ≤ c * c := mul_le_mul hac hac ha hc0
  have ht1 : c * c ≤ 1 := by nlinarith
  have hq : a * a * (a * a * (a * a * 3 - 10) + 15) ≤ c * c * (c * c * (c * c * 3 - 10) + 15) := by
    have hf : 0 ≤ 3 * ((c * c) ^ 2 + (a * a) * (c * c) + (a * a) ^ 2)
        - 10 * (a * a + c * c) + 15 := by
      nlinarith [mul_nonneg (sub_nonneg.mpr ht1) (sub_nonneg.mpr (le_trans hst ht1)),
        mul_nonneg (sub_nonneg.mpr ht1) (sub_nonneg.mpr ht1),
        mul_nonneg (sub_nonneg.mpr (le_trans hst ht1)) (sub_nonneg.mpr (le_trans hst ht1))]
    have := mul_nonneg (sub_nonneg.mpr hst) hf
    nlinarith
  norm_num
  linarith

/-- When `lambda` is shorter than `k` the loop reaches an index where `lambda[i]` is out of
range. -/
theorem poisson_real_lpdf_short (log lgamma : K → K) (k lambda : List K)
    (h : lambda.length < k.length) :
    poisson_real_lpdf log lgamma k lambda = none := by
  obtain ⟨d, hd⟩ : ∃ d, k.length = lambda.length + (d + 1) := ⟨k.length - lambda.length - 1, by omega⟩
  unfold poisson_real_lpdf
  rw [hd, List.range_add, List.foldlM_append,
    poisson_loop_eq log lgamma k lambda lambda.length (by omega) le_rfl,
    List.range_succ_eq_map]
  have hk : lambda.length < k.length := h
  simp [List.getElem?_eq_getElem, hk]

/-- When `lambda` is at least as long as `k` the loop reads only the first `k.size()`
entries of `lambda`. -/
theorem poisson_real_lpdf_long (log lgamma : K → K) (k lambda : List K)
    (h : k.length ≤ lambda.length) :
    poisson_real_lpdf log lgamma k lambda
    = some (∑ i ∈ Finset.range k.length,
        (k.getD i 0 * log (lambda.getD i 0) - lambda.getD i 0 - lgamma (k.getD i 0 + 1))) :=
  poisson_loop_eq log lgamma k lambda k.length le_rfl h

/-- Inside the band `-1 < a < 1` the derivative of `factor_interp` in `alpha` is that of
the interior polynomial. -/
theorem factor_interp_hasDerivAt_inside (log : ℝ → ℝ) (pow : ℝ → ℝ → ℝ) (l u a : ℝ)
    (h1 : -1 < a) (h2 : a < 1) :
    HasDerivAt (fun alpha : ℝ => factor_interp log pow alpha l u)
      (Matrix.mulVec m (b log l u) 0 + 2 * a * Matrix.mulVec m (b log l u) 1
        + 3 * a ^ 2 * Matrix.mulVec m (b log l u) 2 + 4 * a ^ 3 * Matrix.mulVec m (b log l u) 3
        + 5 * a ^ 4 * Matrix.mulVec m (b log l u) 4
        + 6 * a ^ 5 * Matrix.mulVec m (b log l u) 5) a := by
  refine (factor_interp_interior_hasDerivAt log l u a).congr_of_eventuallyEq ?_
  filter_upwards [Ioo_mem_nhds h1 h2] with alpha h
  exact factor_interp_of_interior log pow alpha l u h.2.le h.1.le

/-- Row 0 of `m` times `b`, written out. -/
theorem m_row_zero_b (log : K → K) (l u : K) :
    Matrix.dotProduct (fun j => m 0 j) (b log l u)
      = 15 / 16 * (u - 1) + -15 / 16 * (1 / l - 1) + -7 / 16 * (log u * u)
        + -7 / 16 * (log l / l) + 1 / 16 * (log u * log u * u)
        + -1 / 16 * (log l * log l / l) := by
  have h := congrFun (m_mulVec_b log l u) 0
  simpa [Matrix.mulVec] using h

/-! ## Lemmas on the values of a `double` without rounding -/

namespace XNum

theorem infOfSign_isFinite (x : K) : (infOfSign x).isFinite = false := by
  unfold infOfSign
  split_ifs <;> rfl

theorem add_isFinite (a c : XNum K) (h : (a + c).isFinite = true) :
    a.isFinite = true ∧ c.isFinite = true := by
  cases a <;> cases c <;> simp_all [isFinite, HAdd.hAdd, Add.add, add]

theorem sub_isFinite (a c : XNum K) (h : (a - c).isFinite = true) :
    a.isFinite = true ∧ c.isFinite = true := by
  cases a <;> cases c <;> simp_all [isFinite, HSub.hSub, Sub.sub, add, neg]

theorem mul_isFinite (a c : XNum K) (h : (a * c).isFinite = true) :
    a.isFinite = true ∧ c.isFinite = true := by
  change (mul a c).isFinite = true at h
  cases a <;> cases c <;> first
    | exact ⟨rfl, rfl⟩
    | (exfalso
       simp only [mul, infOfSign_isFinite] at h
       exact Bool.false_ne_true h)

theorem add_def (a c : XNum K) : a + c = add a c := rfl

theorem sub_def (a c : XNum K) : a - c = add a (neg c) := rfl

theorem mul_def (a c : XNum K) : a * c = mul a c := rfl

theorem div_def (a c : XNum K) : a / c = div a c := rfl

theorem neg_def (a : XNum K) : -a = neg a := rfl

theorem one_def : (1 : XNum K) = fin 1 := rfl

theorem zero_def : (0 : XNum K) = fin 0 := rfl

/-- Addition of values is commutative. -/
theorem add_swap (a c : XNum K) : a + c = c + a := by
  change add a c = add c a
  cases a <;> cases c <;> simp [add, add_comm]

/-- Addition of values is associative, so the order of a summation does not matter. -/
theorem add_chain (a c d : XNum K) : a + c + d = a + (c + d) := by
  change add (add a c) d = add a (add c d)
  cases a <;> cases c <;> cases d <;> simp [add, add_assoc]

end XNum


theorem sum6_isFinite (f : Fin 6 → XNum K) (h : (sum6 f).isFinite = true) (j : Fin 6) :
    (f j).isFinite = true := by
  unfold sum6 at h
  obtain ⟨h4, g5⟩ := XNum.add_isFinite _ _ h
  obtain ⟨h3, g4⟩ := XNum.add_isFinite _ _ h4
  obtain ⟨h2, g3⟩ := XNum.add_isFinite _ _ h3
  obtain ⟨h1, g2⟩ := XNum.add_isFinite _ _ h2
  obtain ⟨g0, g1⟩ := XNum.add_isFinite _ _ h1
  fin_cases j <;> assumption

theorem log_x_nonpos (log : K → K) (x : K) (hx : x ≤ 0) :
    (log_x log (XNum.fin x)).isFinite = false := by
  have h : ¬ 0 < x := not_lt.mpr hx
  unfold log_x
  simp only [h, if_false]
  split_ifs <;> rfl

theorem b_x_not_finite (log : K → K) (l u : K) (h : l ≤ 0 ∨ u ≤ 0) :
    ∃ j : Fin 6, (b_x (log_x log) (XNum.fin l) (XNum.fin u) j).isFinite = false := by
  rcases h with h | h
  · refine ⟨3, ?_⟩
    have hl : ¬ 0 < l := not_lt.mpr h
    show (XNum.div (log_x log (XNum.fin l)) (XNum.fin l)).isFinite = false
    unfold log_x
    simp only [hl, if_false]
    by_cases h0 : l = 0
    · simp [h0, XNum.div, XNum.isFinite]
    · simp [h0, XNum.div, XNum.isFinite]
  · refine ⟨2, ?_⟩
    show (log_x log (XNum.fin u) * XNum.fin u).isFinite = false
    by_contra hc
    have hc' : (log_x log (XNum.fin u) * XNum.fin u).isFinite = true := by
      simpa using hc
    have := (XNum.mul_isFinite _ _ hc').1
    rw [log_x_nonpos log u h] at this
    exact Bool.false_ne_true this

theorem factor_interp_x_of_interior (log : XNum K → XNum K) (pow : XNum K → XNum K → XNum K)
    (alpha : K) (l u : XNum K) (h1 : -1 ≤ alpha) (h2 : alpha ≤ 1) :
    factor_interp_x log pow (XNum.fin alpha) l u
      = factor_interp_interior_x log (XNum.fin alpha) l u := by
  have g1 : ¬ (XNum.fin alpha > 1) := by
    show ¬ (XNum.lt (XNum.fin 1) (XNum.fin alpha) = true)
    simp [XNum.lt, h2]
  have g2 : ¬ (XNum.fin alpha < -1) := by
    show ¬ (XNum.lt (XNum.fin alpha) (XNum.fin (-1)) = true)
    simp [XNum.lt, h1]
  simp only [factor_interp_x, g1, g2, if_false]

theorem factor_interp_x_not_finite (log : K → K) (pow : XNum K → XNum K → XNum K)
    (alpha l u : K) (h1 : -1 ≤ alpha) (h2 : alpha ≤ 1) (h : l ≤ 0 ∨ u ≤ 0) :
    (factor_interp_x (log_x log) pow (XNum.fin alpha) (XNum.fin l) (XNum.fin u)).isFinite
      = false := by
  rw [factor_interp_x_of_interior _ _ _ _ _ h1 h2]
  obtain ⟨j, hj⟩ := b_x_not_finite log l u h
  by_contra hc
  have hc' : (factor_interp_interior_x (log_x log) (XNum.fin alpha) (XNum.fin l)
      (XNum.fin u)).isFinite = true := by
    simpa using hc
  unfold factor_interp_interior_x at hc'
  have hs := (XNum.add_isFinite _ _ hc').2
  have ht := sum6_isFinite _ hs j
  have := (XNum.mul_isFinite _ _ ht).2
  rw [hj] at this
  exact Bool.false_ne_true this


/-- The loop of `poisson_real_lpdf_x` over the first `n` bins returns a value, and a
non-finite one as soon as one of these bins has a rate `≤ 0`. -/
theorem poisson_x_loop (log : K → K) (lgamma : XNum K → XNum K) (k lambda : List (XNum K))
    (n : Nat) (hk : n ≤ k.length) (hl : n ≤ lambda.length) :
    ∃ v : XNum K,
      (List.range n).foldlM
        (fun r i => do
          let ki ← k[i]?
          let li ← lambda[i]?
          pure (r + (ki * log_x log li - li - lgamma (ki + 1))))
        (0 : XNum K) = some v ∧
      ((∃ i x, i < n ∧ lambda[i]? = some (XNum.fin x) ∧ x ≤ 0) → v.isFinite = false) := by
  induction n with
  | zero => exact ⟨0, by simp, by rintro ⟨i, x, hi, _⟩; omega⟩
  | succ n ih =>
    obtain ⟨v, hv, hbad⟩ := ih (by omega) (by omega)
    have h1 : n < k.length := by omega
    have h2 : n < lambda.length := by omega
    refine ⟨v + (k[n] * log_x log lambda[n] - lambda[n] - lgamma (k[n] + 1)), ?_, ?_⟩
    · rw [List.range_succ, List.foldlM_append, hv]
      simp [List.getElem?_eq_getElem, h1, h2]
    · rintro ⟨i, x, hi, hx, hx0⟩
      by_contra hc
      have hc' : (v + (k[n] * log_x log lambda[n] - lambda[n]
          - lgamma (k[n] + 1))).isFinite = true := by
        simpa using hc
      obtain ⟨hv', ht⟩ := XNum.add_isFinite _ _ hc'
      rcases Nat.lt_succ_iff_lt_or_eq.mp hi with hi' | hi'
      · rw [hbad ⟨i, x, hi', hx, hx0⟩] at hv'
        exact Bool.false_ne_true hv'
      · subst hi'
        have hlam : lambda[i] = XNum.fin x := by
          rw [List.getElem?_eq_getElem h2] at hx
          exact Option.some.inj hx
        have h3 := (XNum.sub_isFinite _ _ ht).1
        have h4 := (XNum.sub_isFinite _ _ h3).1
        have h5 := (XNum.mul_isFinite _ _ h4).2
        rw [hlam, log_x_nonpos log x hx0] at h5
        exact Bool.false_ne_true h5

theorem poisson_x_not_finite (log : K → K) (lgamma : XNum K → XNum K)
    (k lambda : List (XNum K)) (h : k.length = lambda.length)
    (hbad : ∃ i x, i < k.length ∧ lambda[i]? = some (XNum.fin x) ∧ x ≤ 0) :
    ∃ v : XNum K,
      poisson_real_lpdf_x (log_x log) lgamma k lambda = some v ∧ v.isFinite = false := by
  obtain ⟨v, hv, hb⟩ := poisson_x_loop log lgamma k lambda k.length le_rfl (by omega)
  exact ⟨v, hv, hb hbad⟩

theorem infOfSign_pos (x : K) (h : 0 < x) : XNum.infOfSign x = XNum.pinf := by
  simp [XNum.infOfSign, h]

theorem infOfSign_neg (x : K) (h : x < 0) : XNum.infOfSign x = XNum.ninf := by
  simp [XNum.infOfSign, h, not_lt.mpr h.le]

theorem log_x_zero (log : K → K) : log_x log (XNum.fin 0) = XNum.ninf := by
  simp [log_x]

theorem log_x_pos (log : K → K) (x : K) (h : 0 < x) :
    log_x log (XNum.fin x) = XNum.fin (log x) := by
  simp [log_x, h]

theorem poisson_x_at_zero_rate :
    poisson_real_lpdf_x (log_x Real.log) (lgamma_x fun t => Real.log |Real.Gamma t|)
      [1] [0] = some XNum.ninf := by
  simp only [poisson_real_lpdf_x, List.length_singleton, List.range_succ, List.range_zero,
    List.nil_append, List.foldlM_cons, List.foldlM_nil, XNum.add_def, XNum.sub_def,
    XNum.mul_def, XNum.one_def, XNum.zero_def]
  simp only [List.getElem?_cons_zero, Option.bind_eq_bind, Option.some_bind, Option.pure_def,
    log_x_zero, lgamma_x, XNum.mul, XNum.neg, XNum.add,
    infOfSign_neg (-1 : ℝ) (by norm_num)]


theorem r_loop_x_fin (alpha : K) (i : Nat) :
    r_loop_x (XNum.fin alpha) i = XNum.fin (r_loop alpha i) := by
  induction i with
  | zero => rfl
  | succ i ih =>
    show r_loop_x (XNum.fin alpha) i * XNum.fin alpha = XNum.fin (r_loop alpha i * alpha)
    rw [ih]
    rfl

/-- For a finite `alpha` the row vector `rᵗ·m` is the finite one of the exact model. -/
theorem row_x_fin (alpha : K) (j : Fin 6) :
    (sum6 fun i => r_x (XNum.fin alpha) i * XNum.fin (m i j))
      = XNum.fin (Matrix.vecMul (r alpha) m j) := by
  simp only [sum6, r_x, r_loop_x_fin, Matrix.vecMul, Matrix.dotProduct, Fin.sum_univ_six, r]
  rfl

theorem nan_add (a : XNum K) : XNum.nan + a = XNum.nan := by
  cases a <;> rfl

/-- The vector `b_x` at `l = 0`, `u = 2`. -/
theorem b_x_zero_two :
    b_x (log_x Real.log) (XNum.fin 0) (XNum.fin 2)
      = ![XNum.fin (2 - 1), XNum.pinf, XNum.fin (Real.log 2 * 2), XNum.ninf,
          XNum.fin (Real.log 2 * Real.log 2 * 2), XNum.pinf] := by
  have h2 : log_x Real.log (XNum.fin (2 : ℝ)) = XNum.fin (Real.log 2) :=
    log_x_pos Real.log 2 (by norm_num)
  have h1 : XNum.infOfSign (1 : ℝ) = XNum.pinf := infOfSign_pos 1 (by norm_num)
  have hlt : ¬ ((0 : ℝ) < 0) := lt_irrefl 0
  simp only [b_x, h2, log_x_zero, XNum.sub_def, XNum.mul_def, XNum.div_def, XNum.one_def,
    XNum.mul, XNum.div, XNum.neg, XNum.add, h1, if_true, hlt, if_false, sub_eq_add_neg]

/-- The row vector `rᵗ·m` at `alpha = 0.5`, entries 1 and 3. -/
theorem row_half_signs :
    Matrix.vecMul (r (0.5 : ℝ)) m 1 < 0 ∧ Matrix.vecMul (r (0.5 : ℝ)) m 3 < 0 := by
  rw [r_eq]
  constructor
  all_goals
    simp only [Matrix.vecMul, Matrix.dotProduct, Fin.sum_univ_six, m, Matrix.of_apply,
      Matrix.cons_val_zero, Matrix.cons_val_one, Matrix.cons_val_two, Matrix.cons_val_three,
      Matrix.cons_val_four, vecCons_val_five, Matrix.head_cons, Matrix.tail_cons]
    norm_num

theorem factor_interp_x_at_zero_l (pow : XNum ℝ → XNum ℝ → XNum ℝ) :
    factor_interp_x (log_x Real.log) pow (XNum.fin 0.5) (XNum.fin 0) (XNum.fin 2)
      = XNum.nan := by
  rw [factor_interp_x_of_interior _ _ _ _ _ (by norm_num) (by norm_num)]
  unfold factor_interp_interior_x
  simp only [row_x_fin, b_x_zero_two]
  have s1 := infOfSign_neg _ row_half_signs.1
  have s3 := infOfSign_pos (-(Matrix.vecMul (r (0.5 : ℝ)) m 3))
    (neg_pos.mpr row_half_signs.2)
  simp only [sum6, Matrix.cons_val_zero, Matrix.cons_val_one, Matrix.cons_val_two,
    Matrix.cons_val_three, Matrix.cons_val_four, vecCons_val_five, Matrix.head_cons,
    Matrix.tail_cons, XNum.mul_def, XNum.mul, s1, s3, XNum.add_def, XNum.add, XNum.one_def]

/-- On the valid domain `l > 0`, `u > 0` the vector `b_x` is the finite vector `b`. -/
theorem b_x_valid (log : K → K) (l u : K) (hl : 0 < l) (hu : 0 < u) (j : Fin 6) :
    b_x (log_x log) (XNum.fin l) (XNum.fin u) j = XNum.fin (b log l u j) := by
  have hl0 : l ≠ 0 := hl.ne'
  fin_cases j <;>
    simp [b_x, b, log_x_pos log l hl, log_x_pos log u hu, XNum.sub_def, XNum.mul_def,
      XNum.div_def, XNum.one_def, XNum.mul, XNum.div, XNum.neg, XNum.add, hl0,
      sub_eq_add_neg, vecCons_val_five]

/-- On the valid domain and for a finite `alpha` in the band, the evaluation on `XNum` is
the exact evaluation: `factor_interp_x` returns the finite value of `factor_interp`. -/
theorem factor_interp_x_valid (log : K → K) (pow : XNum K → XNum K → XNum K)
    (alpha l u : K) (h1 : -1 ≤ alpha) (h2 : alpha ≤ 1) (hl : 0 < l) (hu : 0 < u) :
    factor_interp_x (log_x log) pow (XNum.fin alpha) (XNum.fin l) (XNum.fin u)
      = XNum.fin (factor_interp_interior log alpha l u) := by
  rw [factor_interp_x_of_interior _ _ _ _ _ h1 h2]
  unfold factor_interp_interior_x factor_interp_interior
  simp only [row_x_fin, b_x_valid log l u hl hu]
  simp only [sum6, XNum.mul_def, XNum.mul, XNum.add_def, XNum.add, XNum.one_def,
    Matrix.dotProduct, Fin.sum_univ_six]

/-- On finite counts and positive finite rates the loop of `poisson_real_lpdf_x` computes
the finite sum of the exact model. -/
theorem poisson_x_loop_valid (log lgamma : K → K) (k lambda : List K) (n : Nat)
    (hk : n ≤ k.length) (hl : n ≤ lambda.length) (hpos : ∀ x ∈ lambda, 0 < x) :
    (List.range n).foldlM
      (fun r i => do
        let ki ← (k.map XNum.fin)[i]?
        let li ← (lambda.map XNum.fin)[i]?
        pure (r + (ki * log_x log li - li - lgamma_x lgamma (ki + 1))))
      (0 : XNum K)
    = some (XNum.fin (∑ i ∈ Finset.range n,
        (k.getD i 0 * log (lambda.getD i 0) - lambda.getD i 0 - lgamma (k.getD i 0 + 1)))) := by
  induction n with
  | zero => simp [XNum.zero_def]
  | succ n ih =>
    have h1 : n < k.length := by omega
    have h2 : n < lambda.length := by omega
    have hp : 0 < lambda[n] := hpos _ (List.getElem_mem h2)
    rw [List.range_succ, List.foldlM_append, ih (by omega) (by omega), Finset.sum_range_succ]
    simp [List.getD_eq_getElem, h1, h2, List.getElem?_eq_getElem, log_x_pos log _ hp,
      lgamma_x, XNum.add_def, XNum.sub_def, XNum.mul_def, XNum.one_def, XNum.add, XNum.mul,
      XNum.neg, sub_eq_add_neg]

/-- On the valid domain the evaluation on `XNum` is the exact evaluation:
`poisson_real_lpdf_x` returns the finite value of `poisson_real_lpdf`. -/
theorem poisson_x_valid (log lgamma : K → K) (k lambda : List K)
    (h : k.length = lambda.length) (hpos : ∀ x ∈ lambda, 0 < x) :
    poisson_real_lpdf_x (log_x log) (lgamma_x lgamma) (k.map XNum.fin) (lambda.map XNum.fin)
      = (poisson_real_lpdf log lgamma k lambda).map XNum.fin := by
  rw [poisson_real_lpdf_eq_sum log lgamma k lambda h]
  unfold poisson_real_lpdf_x
  rw [List.length_map]
  exact poisson_x_loop_valid log lgamma k lambda k.length le_rfl (by omega) hpos

/-! ## The slope of the interior polynomial at zero -/

/-- The interior expression `1 + rᵗ·m·bv` for an arbitrary vector `bv` in place of `b`:
its derivative in `alpha` at `alpha = 0` is row 0 of `m` times `bv`. -/
theorem interior_any_b_hasDerivAt_zero (bv : Fin 6 → ℝ) :
    HasDerivAt (fun alpha : ℝ => 1 + Matrix.dotProduct (Matrix.vecMul (r alpha) m) bv)
      (15 / 16 * bv 0 - 15 / 16 * bv 1 - 7 / 16 * bv 2 - 7 / 16 * bv 3
        + 1 / 16 * bv 4 - 1 / 16 * bv 5) 0 := by
  have h1 := (hasDerivAt_id (0 : ℝ)).mul_const (Matrix.mulVec m bv 0)
  have h2 := (hasDerivAt_pow 2 (0 : ℝ)).mul_const (Matrix.mulVec m bv 1)
  have h3 := (hasDerivAt_pow 3 (0 : ℝ)).mul_const (Matrix.mulVec m bv 2)
  have h4 := (hasDerivAt_pow 4 (0 : ℝ)).mul_const (Matrix.mulVec m bv 3)
  have h5 := (hasDerivAt_pow 5 (0 : ℝ)).mul_const (Matrix.mulVec m bv 4)
  have h6 := (hasDerivAt_pow 6 (0 : ℝ)).mul_const (Matrix.mulVec m bv 5)
  have h := (((((h1.add h2).add h3).add h4).add h5).add h6).const_add 1
  convert h using 1
  · funext alpha
    rw [← Matrix.dotProduct_mulVec, r_eq]
    simp only [Matrix.dotProduct, Fin.sum_univ_six,
      Matrix.cons_val_zero, Matrix.cons_val_one, Matrix.cons_val_two, Matrix.cons_val_three,
      Matrix.cons_val_four, vecCons_val_five, Matrix.head_cons, Matrix.tail_cons]
    simp
  · simp only [Matrix.mulVec, Matrix.dotProduct, Fin.sum_univ_six, m, Matrix.of_apply,
      Matrix.cons_val_zero, Matrix.cons_val_one, Matrix.cons_val_two, Matrix.cons_val_three,
      Matrix.cons_val_four, vecCons_val_five, Matrix.head_cons, Matrix.tail_cons]
    norm_num
    ring

/-! ## Vectorisation and the two-bin scenario -/

/-- C11. For every `alpha` and `x`, `l`, `u` of equal length `n`, `term_interp` returns a
vector of length `n` whose entry `i` is the specification's scalar piecewise formula applied
to bin `i` alone; it is also what `term_interp` returns when called on bin `i` alone. -/
theorem term_interp_vectorised (alpha : K) (x l u : List K)
    (hl : l.length = x.length) (hu : u.length = x.length) :
    ∃ v : List K,
      term_interp alpha x l u = some v ∧
      v.length = x.length ∧
      ∀ i : Nat, i < x.length →
        v.getD i 0 = term_interp_spec alpha (x.getD i 0) (l.getD i 0) (u.getD i 0) ∧
        term_interp alpha [x.getD i 0] [l.getD i 0] [u.getD i 0] = some [v.getD i 0] := by
  refine ⟨_, term_interp_eq alpha x l u hl hu, by simp, ?_⟩
  intro i hi
  have hv : ((List.range x.length).map fun i =>
      term_interp_bin alpha (x.getD i 0) (l.getD i 0) (u.getD i 0)).getD i 0
      = term_interp_spec alpha (x.getD i 0) (l.getD i 0) (u.getD i 0) := by
    rw [← term_interp_bin_eq_spec]
    simp [List.getD_eq_getElem, hi]
  refine ⟨hv, ?_⟩
  rw [hv, term_interp_eq alpha [x.getD i 0] [l.getD i 0] [u.getD i 0] rfl rfl,
    ← term_interp_bin_eq_spec]
  simp [List.range_succ]

/-- Witness of C11 at `alpha = 1/2` on two bins. -/
theorem term_interp_vectorised_witness :
    ([8, 18] : List ℚ).length = ([10, 20] : List ℚ).length ∧
    ([13, 23] : List ℚ).length = ([10, 20] : List ℚ).length ∧
    ∃ v : List ℚ,
      term_interp (1 / 2 : ℚ) [10, 20] [8, 18] [13, 23] = some v ∧
      v.length = ([10, 20] : List ℚ).length ∧
      ∀ i : Nat, i < ([10, 20] : List ℚ).length →
        v.getD i 0 = term_interp_spec (1 / 2) (([10, 20] : List ℚ).getD i 0)
          (([8, 18] : List ℚ).getD i 0) (([13, 23] : List ℚ).getD i 0) ∧
        term_interp (1 / 2 : ℚ) [([10, 20] : List ℚ).getD i 0] [([8, 18] : List ℚ).getD i 0]
          [([13, 23] : List ℚ).getD i 0] = some [v.getD i 0] :=
  ⟨rfl, rfl, term_interp_vectorised (1 / 2 : ℚ) [10, 20] [8, 18] [13, 23] rfl rfl⟩

/-- C12. For `x = [10, 20]`, `l = [8, 18]`, `u = [13, 23]`: `term_interp` gives `[0, 0]`
at `alpha = 0`, `u - x = [3, 3]` at `alpha = 1` and `[1483/1024, 1483/1024]` at
`alpha = 0.5`, each entry strictly between `0` and `3`; and in each bin the value is
non-decreasing in `alpha` on `[0, 1]`. -/
theorem term_interp_scenario :
    term_interp (0 : ℝ) [10, 20] [8, 18] [13, 23] = some [0, 0] ∧
    term_interp (1 : ℝ) [10, 20] [8, 18] [13, 23] = some [13 - 10, 23 - 20] ∧
    term_interp (0.5 : ℝ) [10, 20] [8, 18] [13, 23] = some [1483 / 1024, 1483 / 1024] ∧
    (0 : ℝ) < 1483 / 1024 ∧ (1483 / 1024 : ℝ) < 13 - 10 ∧ (1483 / 1024 : ℝ) < 23 - 20 ∧
    MonotoneOn (fun alpha : ℝ => bin (term_interp alpha [10, 20] [8, 18] [13, 23]) 0)
      (Set.Icc 0 1) ∧
    MonotoneOn (fun alpha : ℝ => bin (term_interp alpha [10, 20] [8, 18] [13, 23]) 1)
      (Set.Icc 0 1) := by
  have hval : ∀ alpha : ℝ, 0 ≤ alpha → alpha ≤ 1 → ∀ i : Nat, i < 2 →
      bin (term_interp alpha [10, 20] [8, 18] [13, 23]) i
        = alpha * alpha * (alpha * alpha * (alpha * alpha * 3 - 10) + 15) * (0.0625 * 1)
          + alpha * (0.5 * 5) := by
    intro alpha h0 h1 i hi
    rw [bin_term_interp alpha [10, 20] [8, 18] [13, 23] rfl rfl i hi]
    have g1 : ¬ alpha > 1 := not_lt.mpr h1
    have g2 : ¬ alpha < -1 := by
      intro hc
      linarith
    interval_cases i <;> simp [term_interp_bin, g1, g2] <;> norm_num
  have hmono : ∀ i : Nat, i < 2 →
      MonotoneOn (fun alpha : ℝ => bin (term_interp alpha [10, 20] [8, 18] [13, 23]) i)
        (Set.Icc 0 1) := by
    intro i hi a ha c hc hac
    simp only [Set.mem_Icc] at ha hc
    simp only
    rw [hval a ha.1 ha.2 i hi, hval c hc.1 hc.2 i hi]
    exact interior_mono_aux a c ha.1 hac hc.2
  refine ⟨?_, ?_, ?_, by norm_num, by norm_num, by norm_num,
    hmono 0 (by norm_num), hmono 1 (by norm_num)⟩
  · rw [term_interp_eq 0 [10, 20] [8, 18] [13, 23] rfl rfl]
    simp [term_interp_bin, List.range_succ]
  · rw [term_interp_eq 1 [10, 20] [8, 18] [13, 23] rfl rfl]
    simp [term_interp_bin, List.range_succ]
    norm_num
  · rw [term_interp_eq 0.5 [10, 20] [8, 18] [13, 23] rfl rfl]
    have g1 : ¬ (0.5 : ℝ) > 1 := by norm_num
    have g2 : ¬ (0.5 : ℝ) < -1 := by norm_num
    simp [term_interp_bin, List.range_succ, g1, g2]
    norm_num

/-! ## `factor_interp` outside the band -/

/-- C13. For `l > 0` and `u > 0`, `factor_interp(alpha, (l,u))` is `u ^ alpha` for every
`alpha > 1` and `l ^ (-alpha)` for every `alpha < -1`. -/
theorem factor_interp_exponential (l u : ℝ) (_hl : 0 < l) (_hu : 0 < u) :
    (∀ alpha : ℝ, alpha > 1 → factor_interp Real.log (fun p q => p ^ q) alpha l u = u ^ alpha) ∧
    (∀ alpha : ℝ, alpha < -1 →
      factor_interp Real.log (fun p q => p ^ q) alpha l u = l ^ (-alpha)) := by
  constructor
  · intro alpha h
    simp [factor_interp, h]
  · intro alpha h
    have h1 : ¬ alpha > 1 := by
      intro hc
      linarith
    simp [factor_interp, h, h1]

/-- Witness of C13 at `(l, u) = (1/2, 2)`, `alpha = 3` and `alpha = -3`. -/
theorem factor_interp_exponential_witness :
    (0 : ℝ) < 1 / 2 ∧ (0 : ℝ) < 2 ∧ (3 : ℝ) > 1 ∧ (-3 : ℝ) < -1 ∧
    factor_interp Real.log (fun p q => p ^ q) 3 (1 / 2) 2 = (2 : ℝ) ^ (3 : ℝ) ∧
    factor_interp Real.log (fun p q => p ^ q) (-3) (1 / 2) 2 = (1 / 2 : ℝ) ^ (-(-3 : ℝ)) :=
  ⟨by norm_num, by norm_num, by norm_num, by norm_num,
    (factor_interp_exponential (1 / 2) 2 (by norm_num) (by norm_num)).1 3 (by norm_num),
    (factor_interp_exponential (1 / 2) 2 (by norm_num) (by norm_num)).2 (-3) (by norm_num)⟩

/-! ## Absent checks -/

/-- C14, counterexample. Evaluated as the code is written, `poisson_real_lpdf([1], [0])`
returns the value `−∞` and `factor_interp(0.5, (0, 2))` returns the value NaN (whatever
`pow` is, since the interior branch runs): neither call reports an error. -/
theorem domain_error_not_reported :
    poisson_real_lpdf_x (log_x Real.log) (lgamma_x fun t => Real.log |Real.Gamma t|)
      [1] [0] = some XNum.ninf ∧
    (∀ pow : XNum ℝ → XNum ℝ → XNum ℝ,
      factor_interp_x (log_x Real.log) pow (XNum.fin 0.5) (XNum.fin 0) (XNum.fin 2)
        = XNum.nan) :=
  ⟨poisson_x_at_zero_rate, factor_interp_x_at_zero_l⟩

/-- C14, amended. The code implements the unchecked evaluation only: it has no domain
check and reports no error.  `factor_interp(0.5, (0, 2))` returns NaN and
`poisson_real_lpdf([1], [0])` returns `−∞`; more generally `factor_interp` with `l ≤ 0`
or `u ≤ 0` on the interior branch, and `poisson_real_lpdf` on vectors of equal length with
some rate `≤ 0`, return a value that is not finite (NaN, `+∞` or `−∞`). -/
theorem unchecked_evaluation :
    (∀ pow : XNum ℝ → XNum ℝ → XNum ℝ,
      factor_interp_x (log_x Real.log) pow (XNum.fin 0.5) (XNum.fin 0) (XNum.fin 2)
        = XNum.nan) ∧
    poisson_real_lpdf_x (log_x Real.log) (lgamma_x fun t => Real.log |Real.Gamma t|)
      [1] [0] = some XNum.ninf ∧
    (∀ (pow : XNum ℝ → XNum ℝ → XNum ℝ) (alpha l u : ℝ),
      -1 ≤ alpha → alpha ≤ 1 → (l ≤ 0 ∨ u ≤ 0) →
      (factor_interp_x (log_x Real.log) pow (XNum.fin alpha) (XNum.fin l)
        (XNum.fin u)).isFinite = false) ∧
    (∀ (lgamma : XNum ℝ → XNum ℝ) (k lambda : List (XNum ℝ)),
      k.length = lambda.length →
      (∃ i x, i < k.length ∧ lambda[i]? = some (XNum.fin x) ∧ x ≤ 0) →
      ∃ v : XNum ℝ,
        poisson_real_lpdf_x (log_x Real.log) lgamma k lambda = some v ∧
        v.isFinite = false) :=
  ⟨factor_interp_x_at_zero_l, poisson_x_at_zero_rate,
    fun pow alpha l u h1 h2 h => factor_interp_x_not_finite Real.log pow alpha l u h1 h2 h,
    fun lgamma k lambda h hbad => poisson_x_not_finite Real.log lgamma k lambda h hbad⟩

/-- Witness of C14 (amended): the general part at `factor_interp(-0.5, (-1, 3))` and at
`poisson_real_lpdf([2, 1], [3, -1])`. -/
theorem unchecked_evaluation_witness :
    ((-1 : ℝ) ≤ -0.5 ∧ (-0.5 : ℝ) ≤ 1 ∧ ((-1 : ℝ) ≤ 0 ∨ (3 : ℝ) ≤ 0) ∧
      (factor_interp_x (log_x Real.log) (fun p _ => p) (XNum.fin (-0.5)) (XNum.fin (-1))
        (XNum.fin 3)).isFinite = false) ∧
    (([XNum.fin 2, XNum.fin 1] : List (XNum ℝ)).length
        = ([XNum.fin 3, XNum.fin (-1)] : List (XNum ℝ)).length ∧
      ∃ v : XNum ℝ,
        poisson_real_lpdf_x (log_x Real.log) (lgamma_x fun t => Real.log |Real.Gamma t|)
          [XNum.fin 2, XNum.fin 1] [XNum.fin 3, XNum.fin (-1)] = some v ∧
        v.isFinite = false) :=
  ⟨⟨by norm_num, by norm_num, Or.inl (by norm_num),
      unchecked_evaluation.2.2.1 (fun p _ => p) (-0.5) (-1) 3 (by norm_num) (by norm_num)
        (Or.inl (by norm_num))⟩,
    ⟨rfl,
      unchecked_evaluation.2.2.2 (lgamma_x fun t => Real.log |Real.Gamma t|)
        [XNum.fin 2, XNum.fin 1] [XNum.fin 3, XNum.fin (-1)] rfl
        ⟨1, -1, by norm_num, rfl, by norm_num⟩⟩⟩

/-- C15, counterexample. With `k = [3]` and `lambda = [2, 5]` the lengths differ, yet the
call returns a value, `3 ln 2 − 2 − lgamma(4)`, the same as for `lambda = [2]`: the surplus
rate `5` is ignored. -/
theorem poisson_real_lpdf_surplus_ignored :
    ([3] : List ℝ).length ≠ ([2, 5] : List ℝ).length ∧
    poisson_real_lpdf Real.log (fun t => Real.log |Real.Gamma t|) [3] [2, 5]
      = some (3 * Real.log 2 - 2 - Real.log |Real.Gamma (3 + 1)|) ∧
    poisson_real_lpdf Real.log (fun t => Real.log |Real.Gamma t|) [3] [2, 5]
      = poisson_real_lpdf Real.log (fun t => Real.log |Real.Gamma t|) [3] [2] := by
  have h1 : poisson_real_lpdf Real.log (fun t => Real.log |Real.Gamma t|) [3] [2, 5]
      = some (3 * Real.log 2 - 2 - Real.log |Real.Gamma (3 + 1)|) := by
    rw [poisson_real_lpdf_long _ _ [3] [2, 5] (by simp)]
    simp
  refine ⟨by simp, h1, ?_⟩
  rw [h1, poisson_single]

/-- C15, amended. `poisson_real_lpdf` compares no lengths; its loop runs over the indices
of `k`. When `lambda` is at least as long as `k` it returns the sum over `i < length k` of
`k_i·ln(lambda_i) − lambda_i − lgamma(k_i + 1)` and the further entries of `lambda` are not
read; when `lambda` is shorter than `k` the read `lambda[i]` goes out of range and there is
no value. -/
theorem poisson_real_lpdf_no_shape_check (k lam : List ℝ) :
    (k.length ≤ lam.length →
      poisson_real_lpdf Real.log (fun t => Real.log |Real.Gamma t|) k lam
      = some (∑ i ∈ Finset.range k.length,
          (k.getD i 0 * Real.log (lam.getD i 0) - lam.getD i 0
            - Real.log |Real.Gamma (k.getD i 0 + 1)|))) ∧
    (lam.length < k.length →
      poisson_real_lpdf Real.log (fun t => Real.log |Real.Gamma t|) k lam = none) :=
  ⟨poisson_real_lpdf_long _ _ k lam, poisson_real_lpdf_short _ _ k lam⟩

/-- Witness of C15 (amended): `k = [3]`, `lambda = [2, 5]` and `k = [3, 4]`,
`lambda = [2]`. -/
theorem poisson_real_lpdf_no_shape_check_witness :
    (([3] : List ℝ).length ≤ ([2, 5] : List ℝ).length ∧
      poisson_real_lpdf Real.log (fun t => Real.log |Real.Gamma t|) [3] [2, 5]
      = some (∑ i ∈ Finset.range ([3] : List ℝ).length,
          (([3] : List ℝ).getD i 0 * Real.log (([2, 5] : List ℝ).getD i 0)
            - ([2, 5] : List ℝ).getD i 0
            - Real.log |Real.Gamma (([3] : List ℝ).getD i 0 + 1)|))) ∧
    (([2] : List ℝ).length < ([3, 4] : List ℝ).length ∧
      poisson_real_lpdf Real.log (fun t => Real.log |Real.Gamma t|) [3, 4] [2] = none) :=
  ⟨⟨by simp, (poisson_real_lpdf_no_shape_check [3] [2, 5]).1 (by simp)⟩,
    ⟨by simp, (poisson_real_lpdf_no_shape_check [3, 4] [2]).2 (by simp)⟩⟩

/-! ## The interior polynomials -/

/-- C16, counterexample. At `alpha = 1` and at `alpha = -1` the polynomial `r` of
`term_interp` is not `1`, and `0` is not its derivative there. -/
theorem term_interp_r_not_one :
    term_interp_r (1 : ℝ) ≠ 1 ∧ term_interp_r (-1 : ℝ) ≠ 1 ∧
    ¬ HasDerivAt (fun alpha : ℝ => term_interp_r alpha) 0 1 ∧
    ¬ HasDerivAt (fun alpha : ℝ => term_interp_r alpha) 0 (-1) := by
  refine ⟨by norm_num [term_interp_r], by norm_num [term_interp_r], ?_, ?_⟩
  · intro h
    have e := h.unique (term_interp_r_hasDerivAt 1)
    norm_num at e
  · intro h
    have e := h.unique (term_interp_r_hasDerivAt (-1))
    norm_num at e

/-- C16, amended. The polynomial `r(alpha) = alpha²·(alpha²·(3 alpha² − 10) + 15)` of
the interior branch of `term_interp` is even, equals `3 alpha⁶ − 10 alpha⁴ + 15 alpha²`, and
at the junctions has `r = 8` (at `1` and at `-1`), `r′ = 8` at `1` and `r′ = -8` at `-1`;
with the factor `0.0625` of the code this is `0.0625·r = 0.5` at both junctions. -/
theorem term_interp_r_junctions :
    term_interp_r (1 : ℝ) = 8 ∧ term_interp_r (-1 : ℝ) = 8 ∧
    HasDerivAt (fun alpha : ℝ => term_interp_r alpha) 8 1 ∧
    HasDerivAt (fun alpha : ℝ => term_interp_r alpha) (-8) (-1) ∧
    (0.0625 : ℝ) * term_interp_r 1 = 0.5 ∧ (0.0625 : ℝ) * term_interp_r (-1) = 0.5 ∧
    (∀ alpha : ℝ, term_interp_r (-alpha) = term_interp_r alpha) ∧
    (∀ alpha : ℝ, term_interp_r alpha = 3 * alpha ^ 6 - 10 * alpha ^ 4 + 15 * alpha ^ 2) := by
  refine ⟨by norm_num [term_interp_r], by norm_num [term_interp_r], ?_, ?_,
    by norm_num [term_interp_r], by norm_num [term_interp_r], ?_, ?_⟩
  · have h := term_interp_r_hasDerivAt 1
    norm_num at h
    exact h
  · have h := term_interp_r_hasDerivAt (-1)
    norm_num at h
    exact h
  · intro alpha
    simp only [term_interp_r]
    ring
  · intro alpha
    simp only [term_interp_r]
    ring

/-- C17, counterexample. At `(l, u) = (1, 2)` the coefficient of `alpha` in the interior
polynomial, (row 0 of `m`)·`b`, is not `0`, and `0` is not the derivative of
`factor_interp` in `alpha` at `alpha = 0`. -/
theorem factor_interp_deriv_zero_nonzero :
    Matrix.dotProduct (fun j => m 0 j) (b Real.log 1 2) ≠ 0 ∧
    ¬ HasDerivAt (fun alpha : ℝ => factor_interp Real.log (fun p q => p ^ q) alpha 1 2) 0 0 := by
  have hhi : Real.log 2 < 0.6931471808 := Real.log_two_lt_d9
  have hL2 : 0 < Real.log 2 * Real.log 2 := by positivity
  have hne : Matrix.dotProduct (fun j => m 0 j) (b Real.log 1 2) ≠ 0 := by
    rw [m_row_zero_b]
    intro e
    simp at e
    nlinarith
  refine ⟨hne, ?_⟩
  intro h
  have h' := factor_interp_hasDerivAt_inside Real.log (fun p q => p ^ q) 1 2 0
    (by norm_num) (by norm_num)
  have e := h.unique h'
  apply hne
  rw [e]
  simp [Matrix.mulVec]

/-- C17, amended. The coefficient of `alpha` in the interior polynomial `1 + rᵗ·m·b` is
row 0 of `m` times `b`, for whatever vector `b`, with row 0 =
`(15/16, −15/16, −7/16, −7/16, 1/16, −1/16)`; and for `l = 1` and every `u > 0` the
derivative of `factor_interp` in `alpha` at `alpha = 0` is this coefficient,
`15/16·(u − 1) − 7/16·ln(u)·u + 1/16·ln(u)²·u`. -/
theorem factor_interp_slope_at_zero (u : ℝ) (_hu : 0 < u) :
    (∀ bv : Fin 6 → ℝ,
      HasDerivAt (fun alpha : ℝ => 1 + Matrix.dotProduct (Matrix.vecMul (r alpha) m) bv)
        (15 / 16 * bv 0 - 15 / 16 * bv 1 - 7 / 16 * bv 2 - 7 / 16 * bv 3
          + 1 / 16 * bv 4 - 1 / 16 * bv 5) 0) ∧
    HasDerivAt (fun alpha : ℝ => factor_interp Real.log (fun p q => p ^ q) alpha 1 u)
      (15 / 16 * (u - 1) - 7 / 16 * (Real.log u * u)
        + 1 / 16 * (Real.log u * Real.log u * u)) 0 := by
  refine ⟨interior_any_b_hasDerivAt_zero, ?_⟩
  have h' := factor_interp_hasDerivAt_inside Real.log (fun p q => p ^ q) 1 u 0
    (by norm_num) (by norm_num)
  convert h' using 1
  rw [m_mulVec_b]
  simp
  ring

/-- Witness of C17 (amended) at `l = 1`, `u = 3`. -/
theorem factor_interp_slope_at_zero_witness :
    (0 : ℝ) < 3 ∧
    HasDerivAt (fun alpha : ℝ => factor_interp Real.log (fun p q => p ^ q) alpha 1 3)
      (15 / 16 * (3 - 1) - 7 / 16 * (Real.log 3 * 3)
        + 1 / 16 * (Real.log 3 * Real.log 3 * 3)) 0 :=
  ⟨by norm_num, (factor_interp_slope_at_zero 3 (by norm_num)).2⟩

/-- C18 (the code departs from it). At `alpha = 1`, `(l, u) = (1, 8)` the call is
evaluated by the interior branch with the matrix `m` as written in the code; its value is
the displayed expression in `ln 8` (about `-4.1`), which is negative. -/
theorem factor_interp_negative :
    factor_interp Real.log (fun p q => p ^ q) 1 1 8
      = 1 + (1579011 / 1048576 * 7 - 952373 / 1048576 * (Real.log 8 * 8)
          - 1007 / 65536 * (Real.log 8 * Real.log 8 * 8)) ∧
    factor_interp Real.log (fun p q => p ^ q) 1 1 8 < 0 := by
  have hv : factor_interp Real.log (fun p q => p ^ q) 1 1 8
      = 1 + (1579011 / 1048576 * 7 - 952373 / 1048576 * (Real.log 8 * 8)
          - 1007 / 65536 * (Real.log 8 * Real.log 8 * 8)) := by
    rw [factor_interp_of_interior _ _ _ _ _ (by norm_num) (by norm_num)]
    simp [factor_interp_interior_poly, m_mulVec_b, vecCons_val_five]
    ring
  refine ⟨hv, ?_⟩
  rw [hv]
  have h8 : Real.log 8 = 3 * Real.log 2 := by
    rw [show (8 : ℝ) = 2 ^ 3 by norm_num, Real.log_pow]
    norm_num
  have hL : 0.6931471803 < Real.log 2 := Real.log_two_gt_d9
  have hL2 : 0 < Real.log 2 * Real.log 2 := by positivity
  rw [h8]
  nlinarith

/-! ## Special variation pairs -/

/-- C19. When the variation is symmetric about the nominal value in every bin,
`u_i + l_i = 2·x_i`, `term_interp(alpha, x, (l,u))` is `alpha·(u − x)` coefficient by
coefficient for every `alpha`, whichever branch is taken. -/
theorem term_interp_symmetric_linear (alpha : K) (x l u : List K)
    (hl : l.length = x.length) (hu : u.length = x.length)
    (hsym : ∀ i : Nat, i < x.length → u.getD i 0 + l.getD i 0 = 2 * x.getD i 0) :
    term_interp alpha x l u = some (List.zipWith (fun ui xi => alpha * (ui - xi)) u x) := by
  rw [term_interp_eq alpha x l u hl hu, zipWith_eq_map_range _ u x hu]
  congr 1
  apply List.map_congr_left
  intro i hi
  have hi' : i < x.length := by simpa using hi
  have h := hsym i hi'
  have hli : l.getD i 0 = 2 * x.getD i 0 - u.getD i 0 := by linarith
  unfold term_interp_bin
  rw [hli]
  split_ifs <;> ring

/-- Witness of C19 at `alpha = 1/2`, `x = [10, 20]`, `l = [8, 17]`, `u = [12, 23]`. -/
theorem term_interp_symmetric_linear_witness :
    ([8, 17] : List ℚ).length = ([10, 20] : List ℚ).length ∧
    ([12, 23] : List ℚ).length = ([10, 20] : List ℚ).length ∧
    term_interp (1 / 2 : ℚ) [10, 20] [8, 17] [12, 23] = some [1, 3 / 2] := by
  have h := term_interp_symmetric_linear (1 / 2 : ℚ) [10, 20] [8, 17] [12, 23] rfl rfl
    (by
      intro i hi
      have hi' : i < 2 := hi
      interval_cases i <;> norm_num)
  refine ⟨rfl, rfl, ?_⟩
  rw [h]
  norm_num

/-- C20. For the trivial pair `(l, u) = (1, 1)` the vector `b` is zero, so the interior
value `1 + rᵗ·M·b` is `1` for every matrix `M`, and `factor_interp(alpha, (1, 1)) = 1` for
every real `alpha` (in the outer branches `1 ^ alpha = 1 ^ (-alpha) = 1`). -/
theorem factor_interp_trivial_pair :
    b Real.log 1 1 = 0 ∧
    (∀ (alpha : ℝ) (M : Matrix (Fin 6) (Fin 6) ℝ),
      1 + Matrix.dotProduct (Matrix.vecMul (r alpha) M) (b Real.log 1 1) = 1) ∧
    (∀ alpha : ℝ, factor_interp Real.log (fun p q => p ^ q) alpha 1 1 = 1) := by
  have hb : b Real.log 1 1 = 0 := by
    funext i
    fin_cases i <;> simp [b, vecCons_val_five]
  refine ⟨hb, ?_, ?_⟩
  · intro alpha M
    rw [hb]
    simp
  · intro alpha
    unfold factor_interp factor_interp_interior
    rw [hb]
    split_ifs <;> simp

end Stanhf
